import Mathlib

/-!
Verification of the two utility scripts of the ISSCC LaTeX template repository:
`font/bib-sort.py` (a bibliography reconciler) and `font/split-pdf.py` (a PDF
truncation script).  Text files are modelled as `List Char`; Python's regex
scans are embedded as executable character-list scanners; Python exceptions and
process exits are modelled with `Option` and explicit status codes.
-/

/-- Convert a Lean string literal to the `List Char` text model. -/
def toCL (s : String) : List Char := s.toList

/-- Python's default whitespace set for `str.strip` and the regex class
the scripts rely on (ASCII portion): space, tab, newline, carriage return,
vertical tab, form feed. -/
def pyIsSpace (c : Char) : Bool :=
  c == ' ' || c == '\t' || c == '\n' || c == '\r' || c == '\x0b' || c == '\x0c'

/-- Python `str.strip()`: drop whitespace from both ends. -/
def pyStrip (s : List Char) : List Char :=
  ((s.dropWhile pyIsSpace).reverse.dropWhile pyIsSpace).reverse

/-- The eight citation-command patterns of `extract_citations_from_tex`
(`bib-sort.py` lines 31-40), each reduced to its literal lead-in
`\<command>{`; the regex tail `([^}]+)\}` is handled by the scanner. -/
def citationPatterns : List (List Char) :=
  [ toCL "\\cite\x7b",
    toCL "\\citep\x7b",
    toCL "\\citet\x7b",
    toCL "\\citeauthor\x7b",
    toCL "\\citeyear\x7b",
    toCL "\\citeyearpar\x7b",
    toCL "\\autocite\x7b",
    toCL "\\nocite\x7b" ]

/-- One `re.findall` pass for a pattern `\<command>\{([^}]+)\}`
(`bib-sort.py` line 43): scan left to right; at a position where the literal
lead-in matches, the capture is the maximal run of non-`}` characters; the
match succeeds when that run is non-empty and followed by `}`, and scanning
resumes after the closing brace; otherwise scanning advances one character.
The fuel argument only bounds the recursion; every step consumes at least one
character of `text`, so `findMatches` below supplies enough fuel that it is
never exhausted. -/
def findMatchesF (cmd : List Char) : Nat → List Char → List (List Char)
  | 0, _ => []
  | _ + 1, [] => []
  | fuel + 1, c :: rest =>
    if cmd.isPrefixOf (c :: rest) then
      match ((c :: rest).drop cmd.length).dropWhile (fun x => x ≠ '}') with
      | '}' :: r =>
        if ((c :: rest).drop cmd.length).takeWhile (fun x => x ≠ '}') = [] then
          findMatchesF cmd fuel rest
        else
          ((c :: rest).drop cmd.length).takeWhile (fun x => x ≠ '}') ::
            findMatchesF cmd fuel r
      | _ => findMatchesF cmd fuel rest
    else
      findMatchesF cmd fuel rest

/-- All captures of one citation pattern over the document text. -/
def findMatches (cmd text : List Char) : List (List Char) :=
  findMatchesF cmd (text.length + 1) text

/-- Python `str.split(',')` (`bib-sort.py` line 48): split on every comma,
keeping empty pieces. -/
def splitOnComma : List Char → List (List Char)
  | [] => [[]]
  | c :: t =>
    if c = ',' then
      [] :: splitOnComma t
    else
      match splitOnComma t with
      | [] => [[c]]
      | b :: bs => (c :: b) :: bs

/-- `set.add`: Python `set` membership is plain equality.  CPython iterates a
set in an unspecified (hash-dependent) order; the model keeps the keys as a
duplicate-free list in first-insertion order, which fixes one admissible
enumeration and is faithful for all membership facts. -/
def insertNew (l : List (List Char)) (x : List Char) : List (List Char) :=
  if x ∈ l then l else l ++ [x]

/-- Inner loop of `extract_citations_from_tex` (`bib-sort.py` lines 47-50):
split one captured argument on commas and add each stripped piece to the
citation set.  Note the source adds `key.strip()` unconditionally: empty
pieces are added too. -/
def addMatch (acc : List (List Char)) (m : List Char) : List (List Char) :=
  (splitOnComma m).foldl (fun a k => insertNew a (pyStrip k)) acc

/-- `extract_citations_from_tex` (`bib-sort.py` lines 17-52): for each of the
eight patterns in source order, collect every capture and add its
comma-separated, stripped pieces to the citation set. -/
def extract_citations_from_tex (content : List Char) : List (List Char) :=
  citationPatterns.foldl
    (fun acc pat => (findMatches pat content).foldl addMatch acc) []

/-- Python regex `\w` (ASCII portion): letters, digits, underscore. -/
def pyIsWordChar (c : Char) : Bool := c.isAlphanum || c == '_'

/-- Characters allowed in an entry key by the class `[^,\n]`. -/
def keyChar (c : Char) : Bool := !(c == ',' || c == '\n')

/-- The lazy tail `.*?\n\s*\}` of the entry pattern (`bib-sort.py` line 69)
under `re.DOTALL`: consume the shortest prefix ending at a newline whose
following maximal whitespace run is immediately followed by `}`; return the
consumed text (closing brace included) and the remainder.  Since `}` is not
whitespace, the greedy `\s*` has a unique viable extent, so the scan is
deterministic. -/
def scanBody : List Char → Option (List Char × List Char)
  | [] => none
  | c :: t =>
    if c == '\n' && ((t.dropWhile pyIsSpace).head? == some '}') then
      some ('\n' :: (t.takeWhile pyIsSpace ++ ['}']), (t.dropWhile pyIsSpace).tail)
    else
      match scanBody t with
      | some (b, r) => some (c :: b, r)
      | none => none

/-- Attempt the entry regex `(@\w+\{([^,\n]+),.*?\n\s*\})` at the current
position: `@`, a non-empty run of word characters, `{`, a non-empty run of
key characters, `,`, then the lazy body.  Returns
(full matched block, raw key, remainder) on success. -/
def tryEntry (text : List Char) : Option (List Char × List Char × List Char) :=
  match text with
  | '@' :: t =>
    if t.takeWhile pyIsWordChar = [] then none
    else
      match t.dropWhile pyIsWordChar with
      | '{' :: u =>
        if u.takeWhile keyChar = [] then none
        else
          match u.dropWhile keyChar with
          | ',' :: v =>
            match scanBody v with
            | some (b, r) =>
              some ('@' :: (t.takeWhile pyIsWordChar ++
                      '{' :: (u.takeWhile keyChar ++ ',' :: b)),
                    u.takeWhile keyChar, r)
            | none => none
          | _ => none
      | _ => none
  | _ => none

/-- `re.findall` of the entry pattern (`bib-sort.py` line 73): leftmost,
non-overlapping matches; on failure advance one character, on success resume
after the closing brace.  Fuel as in `findMatchesF`. -/
def findEntriesF : Nat → List Char → List (List Char × List Char)
  | 0, _ => []
  | _ + 1, [] => []
  | fuel + 1, c :: rest =>
    match tryEntry (c :: rest) with
    | some (full, key, r) => (full, key) :: findEntriesF fuel r
    | none => findEntriesF fuel rest

/-- All `(full_entry, entry_name)` matches of the bibliography source. -/
def findEntries (text : List Char) : List (List Char × List Char) :=
  findEntriesF (text.length + 1) text

/-- `parse_bib_file` (`bib-sort.py` lines 54-77): the matched entries as a
`(stripped key, full block)` association list in source order.  The Python
loop `entries[entry_name.strip()] = full_entry` builds a dict in which a
later repeated key overwrites an earlier one; lookups in the model go through
`dictFind`, which returns the value of the last binding. -/
def parse_bib_file (content : List Char) : List (List Char × List Char) :=
  (findEntries content).map (fun p => (pyStrip p.2, p.1))

/-- Lookup in the association list with Python-dict semantics: the most
recent (last) binding of the key wins. -/
def dictFind (l : List (List Char × List Char)) (k : List Char) :
    Option (List Char) :=
  match l with
  | [] => none
  | p :: t =>
    match dictFind t k with
    | some v => some v
    | none => if p.1 = k then some p.2 else none

/-- `filter_and_sort_bib_entries` (`bib-sort.py` lines 79-102).  The source
makes two passes over `citation_keys` (building `filtered_entries`, then
`sorted_entries`); both iterate the same set in the same order, so the net
effect is a single pass keeping, in citation-set iteration order, each key
present in the bibliography mapping together with its mapped block. -/
def filter_and_sort_bib_entries (bib_entries : List (List Char × List Char))
    (citation_keys : List (List Char)) : List (List Char × List Char) :=
  citation_keys.filterMap (fun k => (dictFind bib_entries k).map (fun v => (k, v)))

/-- `write_bib_file` (`bib-sort.py` lines 104-114): write each entry's block
followed by `'\n\n'`, in order. -/
def write_bib_file (entries : List (List Char × List Char)) : List Char :=
  (entries.map (fun p => p.2 ++ ['\n', '\n'])).flatten

/-- The destination is opened with mode `'w'`, which truncates: the resulting
file content is `write_bib_file entries` regardless of the previous content
of the destination path (first argument). -/
def write_bib_file_to (_oldContent : List Char)
    (entries : List (List Char × List Char)) : List Char :=
  write_bib_file entries

/-- Split a text on blank lines, i.e. on leftmost non-overlapping occurrences
of `"\n\n"` (exactly Python `text.split("\n\n")`).  Used to state the
serialization round-trip. -/
def splitOnNN : List Char → List (List Char)
  | [] => [[]]
  | [c] => [[c]]
  | a :: b :: t =>
    if a = '\n' ∧ b = '\n' then
      [] :: splitOnNN t
    else
      match splitOnNN (b :: t) with
      | [] => [[a]]
      | x :: xs => (a :: x) :: xs

/-- `true` when the text contains no `"\n\n"` (no blank line). -/
def noNN : List Char → Bool
  | [] => true
  | [_] => true
  | a :: b :: t => !(a == '\n' && b == '\n') && noNN (b :: t)

/-- `main` of `bib-sort.py` (lines 116-151).  File reads are modelled as
`Option` contents (`none` = the file is missing, raising `FileNotFoundError`);
`out0` is the prior content of the output path.  The `try` block runs the four
phases in order and only reaches the write after both reads succeed; the
`except` handlers print and call `sys.exit(1)`, leaving the output path
untouched.  The result is `(exit status, content of the output path after the
run)`; progress printing is not modelled.  (Named `main_run` because Lean
reserves the name `main` for executable entry points.) -/
def main_run (texContent bibContent out0 : Option (List Char)) :
    Nat × Option (List Char) :=
  match texContent with
  | none => (1, out0)
  | some tex =>
    match bibContent with
    | none => (1, out0)
    | some bib =>
      (0, some (write_bib_file
        (filter_and_sort_bib_entries (parse_bib_file bib)
          (extract_citations_from_tex tex))))

/-- Python `pdf_name.replace('.pdf', '')` (`split-pdf.py` line 33): remove
every leftmost non-overlapping occurrence of `".pdf"`. -/
def removeDotPdf : List Char → List Char
  | '.' :: 'p' :: 'd' :: 'f' :: t => removeDotPdf t
  | c :: t => c :: removeDotPdf t
  | [] => []

/-- The literal `".pdf"`. -/
def dotPdf : List Char := toCL ".pdf"

/-- `split-pdf.py` line 33: strip the `.pdf` extension when present — via
`replace`, which removes every occurrence, not only the trailing one. -/
def base_name (pdf_name : List Char) : List Char :=
  if dotPdf.isSuffixOf pdf_name then removeDotPdf pdf_name else pdf_name

/-- `split-pdf.py` line 35: the input filename derived from the base name. -/
def input_file (pdf_name : List Char) : List Char :=
  base_name pdf_name ++ dotPdf

/-- `split-pdf.py` line 36: the backup filename derived from the base name. -/
def backup_file (pdf_name : List Char) : List Char :=
  base_name pdf_name ++ toCL "_with_ref.pdf"

/-- `process_pdf` (`split-pdf.py` lines 25-60).  The file system is a lookup
from filename to PDF content, a PDF being its ordered page list (pages
modelled as `Nat`, their internals being outside the scripts' scope); the
PyPDF2 collaborator contract is the one stated by the repository: reading
yields the page sequence, `add_page` appends, writing stores the writer's
pages.  Returns `none` when the input file is missing (`sys.exit(1)`),
otherwise the two writes performed, in order: the backup copy (`shutil.copy2`)
and the truncated document written over the input name, whose pages are
`reader.pages[page_num]` for `page_num` in `range(min(len(pages), 5))`. -/
def process_pdf (fs : List Char → Option (List Nat)) (pdf_name : List Char) :
    Option ((List Char × List Nat) × (List Char × List Nat)) :=
  match fs (input_file pdf_name) with
  | none => none
  | some pages =>
    some ((backup_file pdf_name, pages),
          (input_file pdf_name,
           (List.range (min pages.length 5)).filterMap (fun i => pages[i]?)))

/-! ## Helper lemmas -/

/-- The head of a `dropWhile` result fails the predicate. -/
theorem dropWhile_head_false {α : Type} {p : α → Bool} :
    ∀ {l : List α} {c : α} {t : List α}, l.dropWhile p = c :: t → p c = false := by
  intro l
  induction l with
  | nil => intro c t h; simp [List.dropWhile] at h
  | cons a l ih =>
    intro c t h
    rw [List.dropWhile_cons] at h
    by_cases ha : p a
    · rw [if_pos ha] at h; exact ih h
    · rw [if_neg ha] at h
      cases h
      exact Bool.eq_false_iff.mpr ha

/-- `pyStrip` is idempotent: a stripped string has no surrounding whitespace
left to remove. -/
theorem pyStrip_idem (s : List Char) : pyStrip (pyStrip s) = pyStrip s := by
  unfold pyStrip
  set A := s.dropWhile pyIsSpace with hA
  set B := A.reverse.dropWhile pyIsSpace with hB
  have h1 : B.reverse.dropWhile pyIsSpace = B.reverse := by
    cases hBr : B.reverse with
    | nil => simp
    | cons c bs =>
      have hsuf : B <:+ A.reverse := hB ▸ List.dropWhile_suffix _
      have hpre : B.reverse <+: A.reverse.reverse := List.reverse_prefix.mpr hsuf
      rw [List.reverse_reverse] at hpre
      obtain ⟨r, hr⟩ := hpre
      rw [hBr] at hr
      have hAc : s.dropWhile pyIsSpace = c :: (bs ++ r) := by
        rw [← hA, ← hr]; simp
      have hc : pyIsSpace c = false := dropWhile_head_false hAc
      simp [List.dropWhile_cons, hc]
  rw [h1, List.reverse_reverse]
  have h2 : B.dropWhile pyIsSpace = B := by
    rw [hB]; exact List.dropWhile_idempotent _ _
  rw [h2]

/-- Membership after `insertNew`: either already present or the new element. -/
theorem mem_insertNew {l : List (List Char)} {x k : List Char}
    (h : k ∈ insertNew l x) : k ∈ l ∨ k = x := by
  unfold insertNew at h
  split at h
  · exact Or.inl h
  · rcases List.mem_append.mp h with h1 | h2
    · exact Or.inl h1
    · exact Or.inr (by simpa using h2)

/-- Elements produced by folding `insertNew` over stripped pieces are either
from the accumulator or a stripped piece. -/
theorem mem_foldl_insertNew :
    ∀ (ms acc : List (List Char)) (k : List Char),
      k ∈ ms.foldl (fun a x => insertNew a (pyStrip x)) acc →
      k ∈ acc ∨ ∃ x, k = pyStrip x := by
  intro ms
  induction ms with
  | nil => intro acc k h; exact Or.inl h
  | cons m t ih =>
    intro acc k h
    rcases ih _ k h with h1 | h2
    · rcases mem_insertNew h1 with ha | hb
      · exact Or.inl ha
      · exact Or.inr ⟨m, hb⟩
    · exact Or.inr h2

/-- Elements produced by folding `addMatch` over a match list are either from
the accumulator or a stripped piece of some match. -/
theorem mem_foldl_addMatch :
    ∀ (ms : List (List Char)) (acc : List (List Char)) (k : List Char),
      k ∈ ms.foldl addMatch acc → k ∈ acc ∨ ∃ x, k = pyStrip x := by
  intro ms
  induction ms with
  | nil => intro acc k h; exact Or.inl h
  | cons m t ih =>
    intro acc k h
    rcases ih _ k h with h1 | h2
    · exact mem_foldl_insertNew _ _ _ h1
    · exact Or.inr h2

/-- Every citation key the extractor returns is the strip of some captured
piece. -/
theorem mem_extract_strip {content k : List Char}
    (h : k ∈ extract_citations_from_tex content) : ∃ x, k = pyStrip x := by
  unfold extract_citations_from_tex at h
  have main : ∀ (pats : List (List Char)) (acc : List (List Char)),
      k ∈ pats.foldl (fun acc pat => (findMatches pat content).foldl addMatch acc) acc →
      k ∈ acc ∨ ∃ x, k = pyStrip x := by
    intro pats
    induction pats with
    | nil => intro acc h; exact Or.inl h
    | cons p t ih =>
      intro acc h
      rcases ih _ h with h1 | h2
      · exact mem_foldl_addMatch _ _ _ h1
      · exact Or.inr h2
  rcases main citationPatterns [] h with h1 | h2
  · simp at h1
  · exact h2

/-- `insertNew` preserves freedom from duplicates. -/
theorem nodup_insertNew {l : List (List Char)} {x : List Char}
    (h : l.Nodup) : (insertNew l x).Nodup := by
  unfold insertNew
  split
  · exact h
  · next hx => simp [List.nodup_append, h, hx]

/-- Folding `insertNew` preserves freedom from duplicates. -/
theorem nodup_foldl_insertNew :
    ∀ (ms acc : List (List Char)), acc.Nodup →
      (ms.foldl (fun a x => insertNew a (pyStrip x)) acc).Nodup := by
  intro ms
  induction ms with
  | nil => intro acc h; exact h
  | cons m t ih => intro acc h; exact ih _ (nodup_insertNew h)

/-- Folding `addMatch` preserves freedom from duplicates. -/
theorem nodup_foldl_addMatch :
    ∀ (ms : List (List Char)) (acc : List (List Char)), acc.Nodup →
      (ms.foldl addMatch acc).Nodup := by
  intro ms
  induction ms with
  | nil => intro acc h; exact h
  | cons m t ih => intro acc h; exact ih _ (nodup_foldl_insertNew _ _ h)

/-- The extractor's result has no duplicates: it faithfully represents a set. -/
theorem extract_nodup (content : List Char) :
    (extract_citations_from_tex content).Nodup := by
  unfold extract_citations_from_tex
  have main : ∀ (pats : List (List Char)) (acc : List (List Char)), acc.Nodup →
      (pats.foldl (fun acc pat => (findMatches pat content).foldl addMatch acc) acc).Nodup := by
    intro pats
    induction pats with
    | nil => intro acc h; exact h
    | cons p t ih => intro acc h; exact ih _ (nodup_foldl_addMatch _ _ h)
  exact main citationPatterns [] (by simp)

/-- Splitting on blank lines undoes appending one entry and its separator,
provided the entry has no internal blank line and does not end in a newline. -/
theorem splitOnNN_append :
    ∀ (e t : List Char), noNN e = true → e.getLast? ≠ some '\n' →
      splitOnNN (e ++ '\n' :: '\n' :: t) = e :: splitOnNN t := by
  intro e
  induction e with
  | nil =>
    intro t _ _
    simp [splitOnNN]
  | cons c e' ih =>
    intro t hn hl
    cases e' with
    | nil =>
      have hc : c ≠ '\n' := by
        intro hc
        exact hl (by simp [hc])
      simp only [List.cons_append, List.nil_append, splitOnNN]
      rw [if_neg (by simp [hc])]
      simp [splitOnNN]
    | cons b t' =>
      rw [noNN, Bool.and_eq_true] at hn
      have hn1 : ¬(c = '\n' ∧ b = '\n') := by
        intro ⟨h1, h2⟩
        simp [h1, h2] at hn
      have hn2 : noNN (b :: t') = true := hn.2
      have hl2 : (b :: t').getLast? ≠ some '\n' := by
        rwa [List.getLast?_cons_cons] at hl
      have := ih t hn2 hl2
      simp only [List.cons_append] at this ⊢
      rw [splitOnNN, if_neg hn1, this]

/-- Characterization of membership in the filter-and-reorder output. -/
theorem mem_filter_and_sort {bib : List (List Char × List Char)}
    {cits : List (List Char)} {k v : List Char} :
    (k, v) ∈ filter_and_sort_bib_entries bib cits ↔
      k ∈ cits ∧ dictFind bib k = some v := by
  unfold filter_and_sort_bib_entries
  rw [List.mem_filterMap]
  constructor
  · rintro ⟨a, ha, hf⟩
    cases hd : dictFind bib a with
    | none => rw [hd] at hf; simp at hf
    | some w =>
      rw [hd] at hf
      simp only [Option.map_some', Option.some.injEq, Prod.mk.injEq] at hf
      obtain ⟨h1, h2⟩ := hf
      subst h1; subst h2
      exact ⟨ha, hd⟩
  · rintro ⟨hk, hd⟩
    exact ⟨k, hk, by rw [hd]; rfl⟩

/-- Folding dict insertion in source order returns the last binding of a key,
i.e. exactly what `dictFind` computes. -/
theorem foldl_dict_eq_dictFind :
    ∀ (l : List (List Char × List Char)) (k : List Char)
      (acc : Option (List Char)),
      l.foldl (fun acc p => if p.1 = k then some p.2 else acc) acc =
        (dictFind l k).elim acc some := by
  intro l k
  induction l with
  | nil => intro acc; rfl
  | cons p t ih =>
    intro acc
    rw [List.foldl_cons, ih]
    show (dictFind t k).elim (if p.1 = k then some p.2 else acc) some =
      (dictFind (p :: t) k).elim acc some
    cases hdt : dictFind t k with
    | some v => simp [dictFind, hdt]
    | none =>
      by_cases hp : p.1 = k <;> simp [dictFind, hdt, hp]

/-- When no citation pattern matches, the extractor returns the empty set. -/
theorem extract_of_no_matches {content : List Char}
    (h : ∀ cmd ∈ citationPatterns, findMatches cmd content = []) :
    extract_citations_from_tex content = [] := by
  unfold extract_citations_from_tex
  have main : ∀ (pats : List (List Char)) (acc : List (List Char)),
      (∀ cmd ∈ pats, findMatches cmd content = []) →
      pats.foldl (fun acc pat => (findMatches pat content).foldl addMatch acc) acc = acc := by
    intro pats
    induction pats with
    | nil => intro acc _; rfl
    | cons p t ih =>
      intro acc hall
      rw [List.foldl_cons, hall p (by simp)]
      exact ih _ (fun cmd hc => hall cmd (by simp [hc]))
  exact main citationPatterns [] h

/-- Indexing a list at `0, 1, ..., n-1` yields its first `n` elements. -/
theorem range_filterMap_getElem (l : List Nat) :
    ∀ n, n ≤ l.length →
      (List.range n).filterMap (fun i => l[i]?) = l.take n := by
  intro n
  induction n with
  | zero => intro _; rfl
  | succ n ih =>
    intro hn
    obtain ⟨v, hv⟩ : ∃ v, l[n]? = some v := ⟨_, List.getElem?_eq_getElem hn⟩
    rw [List.range_succ, List.filterMap_append, ih (Nat.le_of_succ_le hn),
      List.take_succ, hv]
    simp [hv]

/-! ## Claims -/

/-- C1: the spec's corrected-order contract says that for a bibliography with
entries `A`, `B`, `C` and a document citing `C` first and `A, B` together in
a later command, the output lists the keys at their first-occurrence
positions in the document, i.e. `[C, A, B]`.  The code instead iterates the
citation set (pattern by pattern in the model's insertion order): on the
document `\citep{C} and \cite{A,B}` it outputs the keys in the order
`[A, B, C]`, not `[C, A, B]`. -/
theorem reconciler_ignores_document_order :
    (filter_and_sort_bib_entries
        (parse_bib_file
          (toCL "@article\x7bA,\n x\n\x7d\n@article\x7bB,\n x\n\x7d\n@article\x7bC,\n x\n\x7d\n"))
        (extract_citations_from_tex (toCL "\\citep\x7bC\x7d and \\cite\x7bA,B\x7d"))).map
        Prod.fst = [toCL "A", toCL "B", toCL "C"] ∧
      ([toCL "A", toCL "B", toCL "C"] : List (List Char)) ≠
        [toCL "C", toCL "A", toCL "B"] := by
  decide

/-- C2: the serializer writes each entry's raw text verbatim in list order
separated by blank lines, independently of the destination's prior content;
splitting the output on blank lines recovers exactly the `N` entry texts in
order (followed by the file's trailing blank-line terminator), provided each
entry text contains no internal blank line and does not end in a newline. -/
theorem write_bib_file_round_trip :
    ∀ (oldContent : List Char) (entries : List (List Char × List Char)),
      (∀ p ∈ entries, noNN p.2 = true ∧ p.2.getLast? ≠ some '\n') →
      write_bib_file_to oldContent entries = write_bib_file entries ∧
        splitOnNN (write_bib_file entries) =
          entries.map (fun p => p.2) ++ [[]] := by
  intro oldContent entries h
  refine ⟨rfl, ?_⟩
  induction entries with
  | nil => simp [write_bib_file, splitOnNN]
  | cons p rest ih =>
    have hw : write_bib_file (p :: rest) =
        p.2 ++ '\n' :: '\n' :: write_bib_file rest := by
      simp [write_bib_file]
    rw [hw, splitOnNN_append p.2 _ (h p (by simp)).1 (h p (by simp)).2,
      ih (fun q hq => h q (by simp [hq]))]
    simp

/-- C2 witness: two concrete well-formed entries round-trip. -/
theorem write_bib_file_round_trip_witness :
    write_bib_file_to (toCL "old")
        [(toCL "A", toCL "@a\x7bA,\nx\n\x7d"), (toCL "B", toCL "@a\x7bB,\ny\n\x7d")] =
      write_bib_file
        [(toCL "A", toCL "@a\x7bA,\nx\n\x7d"), (toCL "B", toCL "@a\x7bB,\ny\n\x7d")] ∧
    splitOnNN (write_bib_file
        [(toCL "A", toCL "@a\x7bA,\nx\n\x7d"), (toCL "B", toCL "@a\x7bB,\ny\n\x7d")]) =
      ([(toCL "A", toCL "@a\x7bA,\nx\n\x7d"), (toCL "B", toCL "@a\x7bB,\ny\n\x7d")]).map
        (fun p => p.2) ++ [[]] :=
  write_bib_file_round_trip (toCL "old") _ (by decide)

/-- C3 counterexample: the claim says only non-empty trimmed pieces are added
to the citation set, but the code adds `key.strip()` unconditionally: on the
document `\cite{a,}` the empty string is a member of the returned set. -/
theorem extraction_admits_empty_key :
    ([] : List Char) ∈ extract_citations_from_tex (toCL "\\cite\x7ba,\x7d") := by
  decide

/-- C3 amended: every element of the citation set is a trimmed piece of a
matched argument — it carries no leading or trailing whitespace (being a
fixed point of `pyStrip`) — but it may be empty. -/
theorem extraction_keys_stripped :
    ∀ (content k : List Char),
      k ∈ extract_citations_from_tex content → pyStrip k = k := by
  intro content k h
  obtain ⟨x, hx⟩ := mem_extract_strip h
  rw [hx, pyStrip_idem]

/-- C3 amended witness: the key extracted from `\cite{ a }` is its own
strip. -/
theorem extraction_keys_stripped_witness :
    pyStrip (toCL "a") = toCL "a" :=
  extraction_keys_stripped (toCL "\\cite\x7b a \x7d") (toCL "a") (by decide)

/-- C4: the bibliography mapping is last-write-wins — looking up a key in the
parsed mapping returns exactly what a source-order scan that lets later
bindings overwrite earlier ones produces — and any entry the reconciler
emits for a key is that retained (latest) block. -/
theorem parse_last_write_wins :
    ∀ (content k : List Char),
      dictFind (parse_bib_file content) k =
        (parse_bib_file content).foldl
          (fun acc p => if p.1 = k then some p.2 else acc) none ∧
      ∀ (cits : List (List Char)) (v : List Char),
        (k, v) ∈ filter_and_sort_bib_entries (parse_bib_file content) cits →
        dictFind (parse_bib_file content) k = some v := by
  intro content k
  constructor
  · rw [foldl_dict_eq_dictFind]
    cases dictFind (parse_bib_file content) k <;> rfl
  · intro cits v hv
    exact (mem_filter_and_sort.mp hv).2

/-- C4 witness: with key `A` bound twice, the later block `t2` is the one
retained and emitted. -/
theorem parse_last_write_wins_witness :
    dictFind
        (parse_bib_file (toCL "@article\x7bA,\n t1\n\x7d\n@article\x7bA,\n t2\n\x7d\n"))
        (toCL "A") = some (toCL "@article\x7bA,\n t2\n\x7d") :=
  (parse_last_write_wins
      (toCL "@article\x7bA,\n t1\n\x7d\n@article\x7bA,\n t2\n\x7d\n") (toCL "A")).2
    [toCL "A"] (toCL "@article\x7bA,\n t2\n\x7d") (by decide)

/-- C5: the filter-and-reorder step is total (no error path): its output
keys are exactly the cited keys present in the bibliography mapping, in
citation order, and a pair is in the output precisely when its key is cited
and mapped to that block — so a cited key absent from the mapping is
silently omitted. -/
theorem filter_and_sort_keys :
    ∀ (bib : List (List Char × List Char)) (cits : List (List Char)),
      (filter_and_sort_bib_entries bib cits).map Prod.fst =
        cits.filter (fun k => (dictFind bib k).isSome) ∧
      ∀ (k v : List Char),
        (k, v) ∈ filter_and_sort_bib_entries bib cits ↔
          k ∈ cits ∧ dictFind bib k = some v := by
  intro bib cits
  constructor
  · induction cits with
    | nil => rfl
    | cons k t ih =>
      unfold filter_and_sort_bib_entries at ih ⊢
      rw [List.filterMap_cons, List.filter_cons]
      cases hd : dictFind bib k with
      | none => simp [hd, ih]
      | some v => simp [hd, ih]
  · intro k v
    exact mem_filter_and_sort

/-- C5 witness: key `A` is emitted with its block while the unmatched cited
key `Z` is dropped without error. -/
theorem filter_and_sort_keys_witness :
    (toCL "A", toCL "@x") ∈
      filter_and_sort_bib_entries [(toCL "A", toCL "@x")] [toCL "Z", toCL "A"] :=
  ((filter_and_sort_keys [(toCL "A", toCL "@x")] [toCL "Z", toCL "A"]).2
      (toCL "A") (toCL "@x")).mpr ⟨by decide, by decide⟩

/-- C6: when either input file is missing, the run terminates with exit
status 1 and the output path keeps its previous content — the failing read
happens before any write. -/
theorem missing_input_no_output :
    ∀ (texContent bibContent out0 : Option (List Char)),
      texContent = none ∨ bibContent = none →
      main_run texContent bibContent out0 = (1, out0) := by
  rintro texContent bibContent out0 (h | h)
  · subst h; rfl
  · subst h; cases texContent <;> rfl

/-- C6 witness: with the document missing, the prior output content is kept
and the status is 1. -/
theorem missing_input_no_output_witness :
    main_run none (some (toCL "@x")) (some (toCL "keep")) =
      (1, some (toCL "keep")) :=
  missing_input_no_output none (some (toCL "@x")) (some (toCL "keep"))
    (Or.inl rfl)

/-- C7: a document in which no citation pattern matches, together with any
non-empty bibliography, produces an empty output file and a zero exit
status. -/
theorem reconcile_no_citations :
    ∀ (tex bib : List Char) (out0 : Option (List Char)),
      bib ≠ [] →
      (∀ cmd ∈ citationPatterns, findMatches cmd tex = []) →
      main_run (some tex) (some bib) out0 = (0, some []) := by
  intro tex bib out0 _ hm
  show (0, some (write_bib_file (filter_and_sort_bib_entries (parse_bib_file bib)
      (extract_citations_from_tex tex)))) = (0, some [])
  rw [extract_of_no_matches hm]
  rfl

/-- C7 witness: a citation-free document against a one-entry bibliography
yields an empty output. -/
theorem reconcile_no_citations_witness :
    main_run (some (toCL "no citations here")) (some (toCL "@article\x7bA,\n x\n\x7d"))
        (some (toCL "old")) = (0, some []) :=
  reconcile_no_citations (toCL "no citations here") (toCL "@article\x7bA,\n x\n\x7d")
    (some (toCL "old")) (by decide) (by decide)

/-- C8: citation extraction is a pure function of the document text — two
runs on the same text return the same citation set — and its result is
duplicate-free, so it faithfully denotes a set. -/
theorem extraction_idempotent :
    ∀ (content : List Char),
      extract_citations_from_tex content = extract_citations_from_tex content ∧
        (extract_citations_from_tex content).Nodup := by
  intro content
  exact ⟨rfl, extract_nodup content⟩

/-- C9: when the named input file exists, the truncation script performs
exactly two writes: the original page list verbatim to the backup name, then
the first `min(P, 5)` pages, in order, back to the original filename. -/
theorem process_pdf_truncates :
    ∀ (fs : List Char → Option (List Nat)) (pdf_name : List Char)
      (pages : List Nat),
      fs (input_file pdf_name) = some pages →
      process_pdf fs pdf_name =
        some ((backup_file pdf_name, pages),
              (input_file pdf_name, pages.take (min pages.length 5))) := by
  intro fs pdf_name pages h
  unfold process_pdf
  rw [h]
  show some ((backup_file pdf_name, pages),
      (input_file pdf_name,
       (List.range (min pages.length 5)).filterMap (fun i => pages[i]?))) = _
  rw [range_filterMap_getElem pages (min pages.length 5) (Nat.min_le_left _ _)]

/-- C9 witness: a seven-page `m.pdf` is copied to `m_with_ref.pdf` and
rewritten with its first five pages. -/
theorem process_pdf_truncates_witness :
    process_pdf
        (fun f => if f = toCL "m.pdf" then some [1, 2, 3, 4, 5, 6, 7] else none)
        (toCL "m.pdf") =
      some ((backup_file (toCL "m.pdf"), ([1, 2, 3, 4, 5, 6, 7] : List Nat)),
            (input_file (toCL "m.pdf"),
             ([1, 2, 3, 4, 5, 6, 7] : List Nat).take
               (min ([1, 2, 3, 4, 5, 6, 7] : List Nat).length 5))) :=
  process_pdf_truncates
    (fun f => if f = toCL "m.pdf" then some [1, 2, 3, 4, 5, 6, 7] else none)
    (toCL "m.pdf") [1, 2, 3, 4, 5, 6, 7] (by decide)

/-- C10: when the argument ends in `.pdf` the base name is the argument with
every occurrence of `.pdf` removed — so `a.pdf.pdf` yields base name `a` —
and an argument not ending in `.pdf` is used unchanged. -/
theorem base_name_removes_every_occurrence :
    base_name (toCL "a.pdf.pdf") = toCL "a" ∧
      (∀ s : List Char, dotPdf.isSuffixOf s = false → base_name s = s) ∧
      (∀ s : List Char, dotPdf.isSuffixOf s = true →
        base_name s = removeDotPdf s) := by
  refine ⟨by decide, ?_, ?_⟩ <;> intro s h <;> simp [base_name, h]

/-- C10 witness: an argument without the extension is kept unchanged, and the
doubled-extension example evaluates as claimed. -/
theorem base_name_removes_every_occurrence_witness :
    base_name (toCL "doc") = toCL "doc" :=
  base_name_removes_every_occurrence.2.1 (toCL "doc") (by decide)
